import Mathlib

/-!
Shallow embedding (in Lean 4) of the narrator-extraction pipeline of this
repository.  The repository contains two overlapping implementations of the
pipeline:

* `jarh_tadeel_extract.py`, class `JarhWaTadilExtractor` — sequential-counter
  record builder, attributed + standalone judgement extraction, set-based
  teacher/student collections;
* `jarh_tadil_extractor.py`, class `NarratorExtractor` — stop-set name
  extraction and filtered, order-preserving teacher/student extraction.

Python strings are modelled as `List Char` (one element per Unicode scalar,
matching Python's per-character indexing).  Regular expressions appearing in
the source are compiled by hand into deterministic scanners; wherever the
regex engine's behaviour on the pattern is forced (disjoint alternatives,
maximal-munch character classes followed by a character outside the class),
the scanner implements that forced behaviour, as noted at each definition.
The `re.finditer` match lists of the evaluator / teacher / student patterns
are passed to the embedded functions as explicit arguments (they are produced
by the same regex machinery in the source); the per-match processing — which
is what the claims are about — is embedded faithfully.
-/

abbrev Chars := List Char

/-- Whitespace characters recognised by Python's `str.strip` / regex `\s`
(ASCII subset; the corpus uses plain spaces and newlines). -/
def isWS (c : Char) : Bool :=
  c = ' ' || c = '\t' || c = '\n' || c = '\r' || c = '\x0b' || c = '\x0c'

/-- ASCII decimal digit. -/
def isDigitA (c : Char) : Bool := '0' ≤ c && c ≤ '9'

/-- Arabic-Indic decimal digit (U+0660 – U+0669). -/
def isDigitAr (c : Char) : Bool := '٠' ≤ c && c ≤ '٩'

/-- A digit of either numeral system, as matched by Python's `\d` and by the
character class `[٠-٩0-9]` used in the footnote patterns. -/
def isAnyDigit (c : Char) : Bool := isDigitA c || isDigitAr c

/-- The character class `[أ-ي]` (U+0623 – U+064A) used by the name and
relation regexes. -/
def arabLetter (c : Char) : Bool := 'أ' ≤ c && c ≤ 'ي'

/-- Drop matching characters from the right end of a list. -/
def rdropWhile (p : Char → Bool) (s : Chars) : Chars :=
  (s.reverse.dropWhile p).reverse

/-- Python `str.strip()`: surrounding whitespace removed. -/
def stripWS (s : Chars) : Chars := rdropWhile isWS (s.dropWhile isWS)

/-- Member of the punctuation set `,،;؛:.` passed to `str.rstrip` by
`NarratorExtractor._extract_name`. -/
def isPunctTail (c : Char) : Bool :=
  c = ',' || c = '،' || c = ';' || c = '؛' || c = ':' || c = '.'

/-- Python `name.rstrip(',،;؛:.')`. -/
def rstripPunct (s : Chars) : Chars := rdropWhile isPunctTail s

/-- Python substring test `needle in hay`. -/
def hasSub (needle : Chars) : Chars → Bool
  | [] => needle.isEmpty
  | c :: rest => needle.isPrefixOf (c :: rest) || hasSub needle rest

/-- Auxiliary state machine for Python's no-argument `str.split()`:
`tok` is the current (reversed) token being accumulated. -/
def splitWSAux : Chars → Chars → List Chars
  | [], tok => if tok = [] then [] else [tok.reverse]
  | c :: r, tok =>
    if isWS c then
      if tok = [] then splitWSAux r [] else tok.reverse :: splitWSAux r []
    else splitWSAux r (c :: tok)

/-- Python `str.split()` with no argument: whitespace-delimited words, no
empty tokens. -/
def splitWS (s : Chars) : List Chars := splitWSAux s []

/-- Python `' '.join(words)`. -/
def joinWords : List Chars → Chars
  | [] => []
  | [w] => w
  | w :: ws => w ++ ' ' :: joinWords ws

/-- Decimal value of an ASCII digit string (leading zeros allowed),
`foldl`-style as a parser for zero-padded counters. -/
def charsVal (s : Chars) : Nat :=
  s.foldl (fun a c => 10 * a + (c.toNat - 48)) 0

/-- The ASCII digit character for a value below ten. -/
def digitChar : Nat → Char
  | 0 => '0' | 1 => '1' | 2 => '2' | 3 => '3' | 4 => '4'
  | 5 => '5' | 6 => '6' | 7 => '7' | 8 => '8' | _ => '9'

/-- Fuel-indexed decimal printer (structural recursion so that the kernel can
evaluate it; `natToChars` supplies enough fuel). -/
def digitsAux : Nat → Nat → Chars
  | 0, _ => []
  | f + 1, n =>
    if n < 10 then [digitChar n]
    else digitsAux f (n / 10) ++ [digitChar (n % 10)]

/-- Decimal representation of a natural number, as produced by Python's
`str`/format of a nonnegative `int`. -/
def natToChars (n : Nat) : Chars := digitsAux (n + 1) n

/-- Zero-padding to width five: Python's `f"{c:05d}"` for nonnegative `c`
(and `str.zfill(5)`). -/
def zfill5 (s : Chars) : Chars := List.replicate (5 - s.length) '0' ++ s

/-- Map the ten Arabic-Indic digit glyphs to ASCII digits, all other
characters unchanged (one character). -/
def arabDigitToWestern (c : Char) : Char :=
  if c = '٠' then '0' else if c = '١' then '1' else if c = '٢' then '2'
  else if c = '٣' then '3' else if c = '٤' then '4' else if c = '٥' then '5'
  else if c = '٦' then '6' else if c = '٧' then '7' else if c = '٨' then '8'
  else if c = '٩' then '9' else c

/-- The numeral normalizer `arabic_to_western` / `convert_arabic_numerals`:
`str.translate` of the ten-glyph table, i.e. a character-wise map. -/
def arabic_to_western (s : Chars) : Chars := s.map arabDigitToWestern

/-- Parse a nonempty all-digit (ASCII) string. -/
def parseDigits (s : Chars) : Option Nat :=
  if s = [] then none
  else if s.all isDigitA then some (charsVal s) else none

/-- Python `int(str)` on the strings reachable in this pipeline: optional
surrounding whitespace, optional sign, nonempty ASCII-digit body; anything
else raises (modelled as `none`). -/
def pyInt (s : Chars) : Option Int :=
  let t := stripWS s
  match t with
  | '-' :: r => (parseDigits r).map (fun n => -(n : Int))
  | '+' :: r => (parseDigits r).map (fun n => (n : Int))
  | _ => (parseDigits t).map (fun n => (n : Int))

/-- One judgement dictionary as built by `extract_judgements`: classified
entries carry a canonical `statement`; unclassified entries omit it
(`statement = none`).  `evaluated_by = none` models both Python `None`
(standalone matches) and an absent key. -/
structure Judgement where
  statement : Option Chars
  exact_text : Chars
  evaluated_by : Option Chars
deriving DecidableEq

/-- The `JarhTadilRecord` dataclass (output unit of the pipeline). -/
structure JarhTadilRecord where
  narrator_id : Chars
  full_name : Chars
  taadil : List Judgement
  jarh : List Judgement
  unclassified : List Judgement
  teachers : List Chars
  students : List Chars
  source : Int × Nat
deriving DecidableEq

/-- One input page object: raw volume string (possibly Arabic-Indic
numerals), page number, raw text. -/
structure Page where
  vol : Chars
  page : Nat
  text : Chars
deriving DecidableEq

namespace JarhWaTadilExtractor

/-- The Taʿdīl lexicon of `JarhWaTadilExtractor.__init__`, as a Python dict:
insertion order with the duplicate key `صالح الحديث` collapsed onto its first
position, keeping the last value (`Salih al-hadith`). -/
def taadil_terms : List (Chars × Chars) :=
  [ (("ثقة ثقة").data, ("Thiqa Thiqa").data),
    (("ثقة ثبت").data, ("Thiqa Thabt").data),
    (("ثقة حافظ").data, ("Thiqa Hafiz").data),
    (("إمام حافظ").data, ("Imam Hafiz").data),
    (("حجة").data, ("Hujjah").data),
    (("ثقة").data, ("Thiqa").data),
    (("ثبت").data, ("Thabt").data),
    (("صدوق").data, ("Saduq").data),
    (("لا بأس به").data, ("La ba\u0027s bihi").data),
    (("محله الصدق").data, ("Truthful").data),
    (("صالح الحديث").data, ("Salih al-hadith").data),
    (("يكتب حديثه").data, ("His hadith is written").data),
    (("صدوق يهم").data, ("Saduq (but makes mistakes)").data),
    (("صالح").data, ("Salih").data),
    (("شيخ").data, ("Shaykh").data),
    (("وسط").data, ("Average").data) ]

/-- The Jarḥ lexicon, again with Python-dict duplicate-key semantics: the
duplicate keys `ضعيف` and `ليس بالقوي` keep their first position with their
last value, and `فيه لين` is a genuinely new final key. -/
def jarh_terms : List (Chars × Chars) :=
  [ (("وسط").data, ("Average").data),
    (("ضعيف").data, ("Daif").data),
    (("لين الحديث").data, ("Layyin al-Hadith").data),
    (("ليس بالقوي").data, ("Not strong").data),
    (("يهم").data, ("Makes mistakes").data),
    (("منكر الحديث").data, ("Munkar al-Hadith").data),
    (("سيئ الحفظ").data, ("Poor memory").data),
    (("متروك").data, ("Matruk").data),
    (("متروك الحديث").data, ("Matruk al-Hadith").data),
    (("كذاب").data, ("Kadhdhab").data),
    (("وضاع").data, ("Fabricator").data),
    (("ساقط").data, ("Saqit").data),
    (("فيه لين").data, ("Layyin").data) ]

/-- Scanner for the footnote pattern `\(\s*[٠-٩0-9]+\s*\)` at the position
just after an opening parenthesis: optional whitespace, a nonempty digit run,
optional whitespace, a closing parenthesis.  Backtracking is forced since
`\s` and the digit class are disjoint and a shorter `\s*`/digit run still
ends on the same character class.  Returns the rest of the input after the
closing parenthesis when the pattern matches. -/
def matchParen1 (s : Chars) : Option Chars :=
  let s1 := s.dropWhile isWS
  let ds := s1.takeWhile isAnyDigit
  if ds = [] then none
  else
    match (s1.drop ds.length).dropWhile isWS with
    | ')' :: r => some r
    | _ => none

/-- `re.sub(r'\(\s*[٠-٩0-9]+\s*\)', '', text)`: left-to-right scan removing
each nonoverlapping footnote marker (fuel = remaining length, which strictly
bounds the recursion). -/
def removeParens1Aux : Nat → Chars → Chars
  | 0, s => s
  | _ + 1, [] => []
  | f + 1, c :: rest =>
    if c = '(' then
      match matchParen1 rest with
      | some r => removeParens1Aux f r
      | none => c :: removeParens1Aux f rest
    else c :: removeParens1Aux f rest

def removeParens1 (s : Chars) : Chars := removeParens1Aux s.length s

/-- Scanner for the closing bracket of `\[\s*[^]]+?\s*\]` at the position
just after an opening bracket: the lazy nonempty body of non-`]` characters
reaches exactly the nearest `]`, which must not be the immediately following
character (at least one body character is required).  Returns the rest of
the input after that `]`. -/
def scanClose1 : Chars → Option Chars
  | [] => none
  | ']' :: r => some r
  | _ :: r => scanClose1 r

def matchBracket1 : Chars → Option Chars
  | [] => none
  | ']' :: _ => none
  | _ :: r => scanClose1 r

/-- `re.sub(r'\[\s*[^]]+?\s*\]', '', text)`. -/
def removeBrackets1Aux : Nat → Chars → Chars
  | 0, s => s
  | _ + 1, [] => []
  | f + 1, c :: rest =>
    if c = '[' then
      match matchBracket1 rest with
      | some r => removeBrackets1Aux f r
      | none => c :: removeBrackets1Aux f rest
    else c :: removeBrackets1Aux f rest

def removeBrackets1 (s : Chars) : Chars := removeBrackets1Aux s.length s

/-- The Noise Stripper `remove_footnotes`: parenthesized footnote markers
removed first, then bracketed editorial insertions. -/
def remove_footnotes (s : Chars) : Chars := removeBrackets1 (removeParens1 s)

/-- Does `\n?\d+\s*-\s*` match at the head of `s`?  (The lookahead of the
`segment_entries` split pattern.)  `\n?` is forced: a digit is not a newline,
so the optional newline is consumed exactly when present. -/
def numDashHere (s : Chars) : Bool :=
  let s1 := match s with
    | '\n' :: r => r
    | _ => s
  let ds := s1.takeWhile isAnyDigit
  if ds = [] then false
  else
    match (s1.drop ds.length).dropWhile isWS with
    | '-' :: _ => true
    | _ => false

/-- Does `^\d+\s*-\s*` match at the head of `s`?  (The keep-filter of
`segment_entries`, anchored, no optional newline.) -/
def startsNumDash (s : Chars) : Bool :=
  let ds := s.takeWhile isAnyDigit
  if ds = [] then false
  else
    match (s.drop ds.length).dropWhile isWS with
    | '-' :: _ => true
    | _ => false

/-- `re.split(r'(?=\n?\d+\s*-\s*)', text)` (Python ≥ 3.7 zero-width split):
the text is cut at every position where the lookahead matches; after an
empty match the scanner advances one character, so consecutive matching
positions each produce a cut. -/
def segSplitAux : Chars → Chars → List Chars
  | [], acc => [acc.reverse]
  | c :: rest, acc =>
    if numDashHere (c :: rest) then acc.reverse :: segSplitAux rest [c]
    else segSplitAux rest (c :: acc)

/-- The Entry Segmenter `segment_entries`: numeral-normalize, split at entry
boundaries, keep only spans that begin with the `number - ` marker, strip
each kept span. -/
def segment_entries (text : Chars) : List Chars :=
  let t := arabic_to_western text
  ((segSplitAux t []).filter startsNumDash).map stripWS

/-- After the leading digits of `^\d+\s*-\s*`: whitespace, a hyphen, then
trailing whitespace; returns the remainder on success. -/
def parseNumDash (s : Chars) : Option Chars :=
  let ds := s.takeWhile isAnyDigit
  if ds = [] then none
  else
    match (s.drop ds.length).dropWhile isWS with
    | '-' :: r => some (r.dropWhile isWS)
    | _ => none

/-- One repetition of `(?:\s+(?:بن|ابن)\s+[أ-ي]+)`: returns the consumed
characters and the rest.  All the steps are forced: the whitespace runs are
maximal (followed by non-whitespace letters), and the alternatives `بن` /
`ابن` start with different letters. -/
def repOnce (s : Chars) : Option (Chars × Chars) :=
  let w1 := s.takeWhile isWS
  if w1 = [] then none
  else
    let r1 := s.drop w1.length
    let tryWord : Chars → Chars → Option (Chars × Chars) := fun word rest =>
      let w2 := rest.takeWhile isWS
      if w2 = [] then none
      else
        let r2 := rest.drop w2.length
        let ls := r2.takeWhile arabLetter
        if ls = [] then none
        else some (w1 ++ word ++ w2 ++ ls, r2.drop ls.length)
    if (("بن").data).isPrefixOf r1 then
      tryWord (("بن").data) (r1.drop 2)
    else if (("ابن").data).isPrefixOf r1 then
      tryWord (("ابن").data) (r1.drop 3)
    else none

/-- Greedy repetitions (at most `n`) of the patronymic group; the repetition
group has no trailing context in the regex, so the greedy maximum is the
match. -/
def repsUpTo : Nat → Chars → Chars
  | 0, _ => []
  | n + 1, s =>
    match repOnce s with
    | none => []
    | some (consumed, rest) => consumed ++ repsUpTo n rest

/-- Group 1 of `^\d+\s*-\s*([أ-ي]+(?:\s+(?:بن|ابن)\s+[أ-ي]+){1,6})` applied
after the number marker: a nonempty letter run, then one to six patronymic
repetitions (at least one is required). -/
def parseNameCore (s : Chars) : Option Chars :=
  let run1 := s.takeWhile arabLetter
  if run1 = [] then none
  else
    match repOnce (s.drop run1.length) with
    | none => none
    | some (consumed, rest) => some (run1 ++ consumed ++ repsUpTo 5 rest)

/-- `JarhWaTadilExtractor.extract_name`: take the first line of the entry,
remove footnotes, match the anchored number-marker + name regex, and return
the stripped first capture group (or `None`). -/
def extract_name (entry : Chars) : Option Chars :=
  let header := remove_footnotes (entry.takeWhile (fun c => c ≠ '\n'))
  match parseNumDash header with
  | none => none
  | some rest =>
    match parseNameCore rest with
    | none => none
    | some g1 => some (stripWS g1)

/-- The body of the match loop of `extract_judgements` for one evaluator
match `m = (group(1), group(2))`: strip the captures, run the two term
loops threading the `classified` flag, and append one unclassified entry if
the flag stayed `False`. -/
def judgeStep (acc : List Judgement × List Judgement × List Judgement)
    (m : Chars × Chars) : List Judgement × List Judgement × List Judgement :=
  let evaluator := stripWS m.1
  let phrase := stripWS m.2
  let r1 := taadil_terms.foldl
    (fun (lc : List Judgement × Bool) p =>
      if hasSub p.1 phrase then
        (lc.1 ++ [⟨some p.2, phrase, some evaluator⟩], true)
      else lc)
    (acc.1, false)
  let r2 := jarh_terms.foldl
    (fun (lc : List Judgement × Bool) p =>
      if hasSub p.1 phrase then
        (lc.1 ++ [⟨some p.2, phrase, some evaluator⟩], true)
      else lc)
    (acc.2.1, r1.2)
  let un := if r2.2 then acc.2.2
    else acc.2.2 ++ [⟨none, phrase, some evaluator⟩]
  (r1.1, r2.1, un)

/-- `extract_judgements`.  `ms` is the list of `(group(1), group(2))`
captures of `re.finditer` with the evaluator pattern
`(?:قال|وقال)\s+([أ-ي\s]+?)[:：]\s*([^\.،\n]{2,200})` on `text`, in scan
order; the body of the loop over those matches and the two standalone scans
are embedded verbatim. -/
def extract_judgements (ms : List (Chars × Chars)) (text : Chars) :
    List Judgement × List Judgement × List Judgement :=
  let a := ms.foldl judgeStep ([], [], [])
  let ta := taadil_terms.foldl
    (fun l p => if hasSub p.1 text then l ++ [⟨some p.2, p.1, none⟩] else l)
    a.1
  let ja := jarh_terms.foldl
    (fun l p => if hasSub p.1 text then l ++ [⟨some p.2, p.1, none⟩] else l)
    a.2.1
  (ta, ja, a.2.2)

/-- One separator character of the split class `[و,]+`. -/
def isAndSep (c : Char) : Bool := c = 'و' || c = ','

/-- `re.split(r'[و,]+', raw)`: cut at every maximal run of separator
characters (empty pieces kept, as in Python).  Fuel-indexed: each step
consumes at least one character, so `raw.length` fuel suffices. -/
def splitSepAux : Nat → Chars → Chars → List Chars
  | _, [], tok => [tok.reverse]
  | 0, s, tok => [tok.reverse ++ s]
  | f + 1, c :: r, tok =>
    if isAndSep c then
      tok.reverse :: splitSepAux f (r.dropWhile isAndSep) []
    else splitSepAux f r (c :: tok)

/-- `split_names` of `extract_teachers_students`: split on `[و,]+`, strip
each piece, drop pieces that strip to nothing. -/
def split_names (raw : Chars) : List Chars :=
  ((splitSepAux raw.length raw []).map stripWS).filter (fun n => n ≠ [])

/-- A function enumerating a Python `set` of strings as `list(s)` does: the
result has no duplicates and exactly the members of the insertion sequence.
Its order is NOT determined by the language (string hashing is randomized
per process), so the pipeline is parameterized by it. -/
def validEnum (e : List Chars → List Chars) : Prop :=
  ∀ xs, (e xs).Nodup ∧ ∀ a, a ∈ e xs ↔ a ∈ xs

/-- `extract_teachers_students`.  `tCaps` / `sCaps` are the group-1 captures
of the teacher / student patterns over the entry text (in pattern order,
then scan order), and `enum` is the `list(set)` enumeration (see
`validEnum`).  Every split name is added to the set; the function returns
the two enumerations. -/
def extract_teachers_students (enum : List Chars → List Chars)
    (tCaps sCaps : List Chars) : List Chars × List Chars :=
  (enum ((tCaps.map split_names).flatten),
   enum ((sCaps.map split_names).flatten))

/-- `f"N{counter:05d}"`. -/
def mkId (n : Nat) : Chars := 'N' :: zfill5 (natToChars n)

/-- `process_entry`: drop the entry when no (nonempty) name is extracted,
otherwise build a record carrying the current counter value and advance the
counter.  `em`, `tc`, `sc` supply the regex-engine capture lists for the
evaluator / teacher / student patterns on a given entry text; `enum` is the
set enumeration. -/
def process_entry (em : Chars → List (Chars × Chars))
    (tc sc : Chars → List Chars) (enum : List Chars → List Chars)
    (entry : Chars) (page : Nat) (vol : Int) (counter : Nat) :
    Option JarhTadilRecord × Nat :=
  match extract_name entry with
  | none => (none, counter)
  | some name =>
    if name = [] then (none, counter)
    else
      let j := extract_judgements (em entry) entry
      let ts := extract_teachers_students enum (tc entry) (sc entry)
      (some
        { narrator_id := mkId counter
          full_name := name
          taadil := j.1
          jarh := j.2.1
          unclassified := j.2.2
          teachers := ts.1
          students := ts.2
          source := (vol, page) },
       counter + 1)

/-- The entry loop of `extract_from_json` for one page: records of the page
in emission order, together with the final counter. -/
def processEntries (em : Chars → List (Chars × Chars))
    (tc sc : Chars → List Chars) (enum : List Chars → List Chars)
    (entries : List Chars) (page : Nat) (vol : Int) (counter : Nat) :
    List JarhTadilRecord × Nat :=
  match entries with
  | [] => ([], counter)
  | e :: es =>
    match process_entry em tc sc enum e page vol counter with
    | (none, c1) => processEntries em tc sc enum es page vol c1
    | (some r, c1) =>
      let rest := processEntries em tc sc enum es page vol c1
      (r :: rest.1, rest.2)

/-- The page driver `extract_from_json`: normalize and parse each page's
volume (a parse failure raises in Python, modelled as `none` for the whole
run), skip pages with volume below `start_volume`, and process the segmented
entries of retained pages in order.  Returns all emitted records in order
and the final counter. -/
def extract_from_json (em : Chars → List (Chars × Chars))
    (tc sc : Chars → List Chars) (enum : List Chars → List Chars)
    (start_volume : Int) : List Page → Nat →
    Option (List JarhTadilRecord × Nat)
  | [], counter => some ([], counter)
  | p :: ps, counter =>
    match pyInt (arabic_to_western p.vol) with
    | none => none
    | some vol =>
      if vol < start_volume then
        extract_from_json em tc sc enum start_volume ps counter
      else
        let pr := processEntries em tc sc enum (segment_entries p.text)
          p.page vol counter
        match extract_from_json em tc sc enum start_volume ps pr.2 with
        | none => none
        | some (rs, cEnd) => some (pr.1 ++ rs, cEnd)

end JarhWaTadilExtractor

/-- Element of a hand-compiled regex pattern over the stop set:
a literal word, a single whitespace character (`\s`), or a nonempty
whitespace run (`\s+`). -/
inductive PatElem where
  | lit (w : Chars)
  | ws1
  | wsPlus
deriving DecidableEq

/-- Does the element sequence match a prefix of `s` (existence of any match,
which is what a search position test needs)?  Fuel-indexed; every step
consumes either one pattern element or one character, so
`ps.length + s.length + 1` fuel is always enough. -/
def patMatchF : Nat → List PatElem → Chars → Bool
  | _, [], _ => true
  | 0, _ :: _, _ => false
  | f + 1, PatElem.lit w :: ps, s =>
    w.isPrefixOf s && patMatchF f ps (s.drop w.length)
  | _ + 1, PatElem.ws1 :: _, [] => false
  | f + 1, PatElem.ws1 :: ps, c :: r => isWS c && patMatchF f ps r
  | _ + 1, PatElem.wsPlus :: _, [] => false
  | f + 1, PatElem.wsPlus :: ps, c :: r =>
    isWS c && (patMatchF f ps r || patMatchF f (PatElem.wsPlus :: ps) r)

def patMatch (ps : List PatElem) (s : Chars) : Bool :=
  patMatchF (ps.length + s.length + 1) ps s

/-- `re.search(pattern, s).start()`: index of the leftmost position where
the pattern matches, if any. -/
def firstMatchPos (p : List PatElem) : Chars → Option Nat
  | [] => if patMatch p [] then some 0 else none
  | c :: r =>
    if patMatch p (c :: r) then some 0
    else (firstMatchPos p r).map (fun i => i + 1)

namespace NarratorExtractor

/-- The taadil keyword list of `NarratorExtractor.__init__` (no duplicate
entries, so the later order-preserving dedup is the identity on it). -/
def taadil_keywords : List Chars :=
  [ ("ثقة").data, ("صدوق").data, ("حافظ").data, ("متقن").data,
    ("ضابط").data, ("عدل").data, ("مأمون").data, ("لا بأس به").data,
    ("صالح الحديث").data, ("يكتب حديثه").data, ("حجة").data, ("إمام").data,
    ("ثبت").data, ("عابد").data, ("فاضل").data, ("صالح").data,
    ("مقبول").data, ("رجل صالح").data, ("لا بأس").data, ("ما بال به").data,
    ("محله الصدق").data, ("صدق").data ]

/-- The jarh keyword list of `NarratorExtractor.__init__`. -/
def jarh_keywords : List Chars :=
  [ ("ضعيف").data, ("متروك").data, ("كذاب").data, ("وضاع").data,
    ("منكر الحديث").data, ("واه").data, ("ليس بشيء").data,
    ("لا يحتج به").data, ("مجهول").data, ("ضعفه").data, ("تركه").data,
    ("ليس بالقوي").data, ("فيه ضعف").data, ("منكر").data,
    ("لا يعرف").data, ("مجروح").data, ("ليس بثقة").data,
    ("ضعيف الحديث").data ]

/-- Order-preserving removal of duplicates, as `list(dict.fromkeys(l))`. -/
def dedupFirst : Nat → List Chars → List Chars
  | _, [] => []
  | 0, l => l
  | f + 1, x :: xs => x :: dedupFirst f (xs.filter (fun y => y ≠ x))

/-- `_extract_keywords`: every keyword contained in the text, in keyword
order, then `list(dict.fromkeys(...))`. -/
def extract_keywords (text : Chars) (keywords : List Chars) : List Chars :=
  let found := keywords.filter (fun k => hasSub k text)
  dedupFirst found.length found

/-- `re.sub(r'^\d+\s*-\s*', '', text)`: the anchored number marker (if
present) removed once. -/
def removeNumDash (s : Chars) : Chars :=
  let ds := s.takeWhile isAnyDigit
  if ds = [] then s
  else
    match (s.drop ds.length).dropWhile isWS with
    | '-' :: r => r.dropWhile isWS
    | _ => s

/-- Closing scanner for `\[.*?\]`: the lazy body matches any characters
except newline (Python `.` does not match `\n`), possibly empty, up to the
nearest `]`.  Returns the rest after that `]`, or `none` when a newline or
the end of input intervenes. -/
def scanClose2 : Chars → Option Chars
  | [] => none
  | ']' :: r => some r
  | '\n' :: _ => none
  | _ :: r => scanClose2 r

/-- `re.sub(r'\[.*?\]', '', text)`. -/
def removeBrackets2Aux : Nat → Chars → Chars
  | 0, s => s
  | _ + 1, [] => []
  | f + 1, c :: rest =>
    if c = '[' then
      match scanClose2 rest with
      | some r => removeBrackets2Aux f r
      | none => c :: removeBrackets2Aux f rest
    else c :: removeBrackets2Aux f rest

def removeBrackets2 (s : Chars) : Chars := removeBrackets2Aux s.length s

/-- Matcher for `\([٠-٩0-9]+\)` just after an opening parenthesis: a
nonempty digit run then `)` (no interior whitespace, unlike the other
implementation's footnote pattern). -/
def matchParen2 (s : Chars) : Option Chars :=
  let ds := s.takeWhile isAnyDigit
  if ds = [] then none
  else
    match s.drop ds.length with
    | ')' :: r => some r
    | _ => none

/-- `re.sub(r'\([٠-٩0-9]+\)', '', text)`. -/
def removeParens2Aux : Nat → Chars → Chars
  | 0, s => s
  | _ + 1, [] => []
  | f + 1, c :: rest =>
    if c = '(' then
      match matchParen2 rest with
      | some r => removeParens2Aux f r
      | none => c :: removeParens2Aux f rest
    else c :: removeParens2Aux f rest

def removeParens2 (s : Chars) : Chars := removeParens2Aux s.length s

/-- The sixteen stop patterns of `_extract_name`, in source order, compiled
from their regexes (`\s` → `ws1`, `\s+` → `wsPlus`, literals verbatim). -/
def stop_patterns : List (List PatElem) :=
  [ [PatElem.ws1, PatElem.lit (("روت").data), PatElem.wsPlus,
     PatElem.lit (("عن").data)],
    [PatElem.ws1, PatElem.lit (("روى").data), PatElem.wsPlus,
     PatElem.lit (("عن").data)],
    [PatElem.ws1, PatElem.lit (("يروى").data), PatElem.wsPlus,
     PatElem.lit (("عن").data)],
    [PatElem.ws1, PatElem.lit (("حدث").data)],
    [PatElem.ws1, PatElem.lit (("قال").data)],
    [PatElem.ws1, PatElem.lit (("سمعت").data)],
    [PatElem.ws1, PatElem.lit (("نا").data), PatElem.ws1],
    [PatElem.ws1, PatElem.lit (("اسمها").data), PatElem.ws1],
    [PatElem.ws1, PatElem.lit (("اسمه").data), PatElem.ws1],
    [PatElem.ws1, PatElem.lit (("من").data), PatElem.wsPlus,
     PatElem.lit (("اصحاب").data)],
    [PatElem.ws1, PatElem.lit (("له").data), PatElem.wsPlus,
     PatElem.lit (("صحبة").data)],
    [PatElem.ws1, PatElem.lit (("مدينى").data)],
    [PatElem.ws1, PatElem.lit (("بكري").data)],
    [PatElem.ws1, PatElem.lit (("خزاعية").data)],
    [PatElem.ws1, PatElem.lit (("انصارية").data)],
    [PatElem.ws1, PatElem.lit (("امرأة").data)] ]

/-- One iteration of the stop-position loop of `_extract_name`: lower the
current minimum to the pattern's first match position when smaller. -/
def minStep (s : Chars) (m : Nat) (p : List PatElem) : Nat :=
  match firstMatchPos p s with
  | some i => if i < m then i else m
  | none => m

/-- The stop-position loop of `_extract_name`: `min_pos` starts at the text
length and is lowered to each pattern's first match position when smaller. -/
def minStop (s : Chars) : Nat :=
  stop_patterns.foldl (minStep s) s.length

/-- Some stop pattern matches at position `i` of `s` (the property the
`min_pos` scan is looking for). -/
def stopAt (s : Chars) (i : Nat) : Bool :=
  stop_patterns.any (fun p => patMatch p (s.drop i))

/-- The noise-stripped head of an entry as `_extract_name` prepares it:
number marker removed, bracketed spans removed, footnote markers removed. -/
def cleanedEntry (t : Chars) : Chars :=
  removeParens2 (removeBrackets2 (removeNumDash t))

/-- Postprocessing of the raw name: strip whitespace, strip trailing
punctuation, cap at six whitespace-delimited words. -/
def postName (n : Chars) : Chars :=
  let n2 := rstripPunct (stripWS n)
  let w := splitWS n2
  if 6 < w.length then joinWords (w.take 6) else n2

/-- `NarratorExtractor._extract_name`, embedded as in the source: clean the
text, find the minimal stop-pattern position, take the text before it (or
fall back to the first five words), then postprocess. -/
def extract_name (t : Chars) : Chars :=
  let u := cleanedEntry t
  let mp := minStop u
  let name :=
    if mp < u.length then stripWS (u.take mp)
    else joinWords ((splitWS u).take 5)
  postName name

/-- Separator test for `re.split(r'\s+و\s+', s)` at the head of `s`: a
maximal whitespace run, the conjunction letter, then a nonempty whitespace
run (again maximal, both forced since `و` is not whitespace).  Returns the
rest after the separator. -/
def sepAndMatch (s : Chars) : Option Chars :=
  match s with
  | [] => none
  | c :: _ =>
    if isWS c then
      match s.dropWhile isWS with
      | 'و' :: r3 =>
        match r3 with
        | d :: _ => if isWS d then some (r3.dropWhile isWS) else none
        | [] => none
      | _ => none
    else none

/-- `re.split(r'\s+و\s+', s)` (empty pieces kept).  Fuel-indexed; every
step consumes at least one character. -/
def splitAndAux : Nat → Chars → Chars → List Chars
  | _, [], tok => [tok.reverse]
  | 0, s, tok => [tok.reverse ++ s]
  | f + 1, c :: r, tok =>
    match sepAndMatch (c :: r) with
    | some rest => tok.reverse :: splitAndAux f rest []
    | none => splitAndAux f r (c :: tok)

def splitAnd (s : Chars) : List Chars := splitAndAux s.length s []

/-- Candidate cleaning in `_extract_teachers`: strip, remove brackets and
footnote markers, strip again, then drop a leading `عن ` (three characters)
and strip. -/
def cleanTName (n : Chars) : Chars :=
  let t := stripWS n
  let t := removeBrackets2 t
  let t := removeParens2 t
  let t := stripWS t
  if (("عن ").data).isPrefixOf t then stripWS (t.drop 3) else t

/-- Candidate cleaning in `_extract_students`: as for teachers but dropping
a leading `عنه ` (four characters) and then a leading `عنها ` (five
characters), sequentially as in the source. -/
def cleanSName (n : Chars) : Chars :=
  let t := stripWS n
  let t := removeBrackets2 t
  let t := removeParens2 t
  let t := stripWS t
  let t := if (("عنه ").data).isPrefixOf t then stripWS (t.drop 4) else t
  if (("عنها ").data).isPrefixOf t then stripWS (t.drop 5) else t

/-- The acceptance test shared by both relation extractors: length above
two, no metadata token (`بياض`, `احاديث`, `حديث`) contained, not already
collected. -/
def acceptName (cleaned : Chars) (acc : List Chars) : Prop :=
  2 < cleaned.length ∧ hasSub (("بياض").data) cleaned = false ∧
    hasSub (("احاديث").data) cleaned = false ∧
    hasSub (("حديث").data) cleaned = false ∧ cleaned ∉ acc

instance (cleaned : Chars) (acc : List Chars) :
    Decidable (acceptName cleaned acc) := by
  unfold acceptName; infer_instance

/-- One candidate step of the relation loops, for a given cleaning
function: clean, then append exactly when the acceptance test passes. -/
def stepGen (cl : Chars → Chars) (acc : List Chars) (cand : Chars) :
    List Chars :=
  if acceptName (cl cand) acc then acc ++ [cl cand] else acc

/-- `_extract_teachers`.  `caps` is the concatenation, in pattern order then
scan order, of the group-1 results of `re.findall` for the four teacher
patterns; each capture is split on `\s+و\s+` and every piece runs through
the clean-and-accept loop. -/
def extract_teachers (caps : List Chars) : List Chars :=
  caps.foldl (fun acc cap => (splitAnd cap).foldl (stepGen cleanTName) acc) []

/-- `_extract_students`, analogously for the three student patterns. -/
def extract_students (caps : List Chars) : List Chars :=
  caps.foldl (fun acc cap => (splitAnd cap).foldl (stepGen cleanSName) acc) []

end NarratorExtractor

namespace JarhWaTadilExtractor

/-- Specification-side form of the attributed taadil contributions of one
evaluator match: one Judgement per lexicon term contained in the stripped
phrase, in lexicon order, each carrying the phrase and the stripped
evaluator. -/
def attTaadil (m : Chars × Chars) : List Judgement :=
  (taadil_terms.filter (fun p => hasSub p.1 (stripWS m.2))).map
    (fun p => ⟨some p.2, stripWS m.2, some (stripWS m.1)⟩)

/-- Specification-side form of the attributed jarh contributions of one
evaluator match. -/
def attJarh (m : Chars × Chars) : List Judgement :=
  (jarh_terms.filter (fun p => hasSub p.1 (stripWS m.2))).map
    (fun p => ⟨some p.2, stripWS m.2, some (stripWS m.1)⟩)

/-- The stripped phrase of the match contains no term of either lexicon. -/
def unclassifiedFlag (m : Chars × Chars) : Bool :=
  !(taadil_terms.any (fun p => hasSub p.1 (stripWS m.2)) ||
    jarh_terms.any (fun p => hasSub p.1 (stripWS m.2)))

/-- The unclassified entry produced for an evaluator match whose phrase
contains no lexicon term. -/
def unclassOf (m : Chars × Chars) : Judgement :=
  ⟨none, stripWS m.2, some (stripWS m.1)⟩

/-- Specification-side form of the standalone taadil scan over the whole
entry text: one Judgement per contained lexicon term, in lexicon order,
with the term itself as `exact_text` and no evaluator. -/
def standaloneTaadil (text : Chars) : List Judgement :=
  (taadil_terms.filter (fun p => hasSub p.1 text)).map
    (fun p => ⟨some p.2, p.1, none⟩)

/-- Specification-side form of the standalone jarh scan. -/
def standaloneJarh (text : Chars) : List Judgement :=
  (jarh_terms.filter (fun p => hasSub p.1 text)).map
    (fun p => ⟨some p.2, p.1, none⟩)

end JarhWaTadilExtractor

/-!  Concrete inputs used by the witness and counterexample theorems.  -/

/-- A regex-capture oracle returning no evaluator matches (the evaluator
pattern `(?:قال|وقال)\s+…[:：]…` has no match on the witness entries below,
which contain neither `قال` nor a colon). -/
def emNone : Chars → List (Chars × Chars) := fun _ => []

/-- A relation-capture oracle returning no captures (the teacher/student
patterns require `روى عن`/`سمع`/`روى عنه`/`حدث عنه`, absent from the witness
entries below). -/
def capNone : Chars → List Chars := fun _ => []

/-- The `list(set(...))` enumeration used in witness runs: Mathlib's
`dedup`, which satisfies `validEnum`. -/
def enumDedup : List Chars → List Chars := fun xs => xs.dedup

/-- A second admissible `list(set(...))` enumeration (reversed), used to
exhibit the order nondeterminism of the set-based relation lists. -/
def enumDedupRev : List Chars → List Chars := fun xs => xs.dedup.reverse

/-- Witness page: volume written with an Arabic-Indic numeral, one entry
with a patronymic name and no judgement/relation phrases. -/
def pageW : Page := ⟨("٢").data, 10, ("1 - محمد بن فلان").data⟩

/-- Witness page with volume 1 (filtered out under the default threshold). -/
def pageV1 : Page := ⟨("١").data, 5, ("1 - محمد بن فلان").data⟩

/-- The single record emitted by the witness run on `pageW`. -/
def recW : JarhTadilRecord :=
  { narrator_id := ("N00001").data
    full_name := ("محمد بن فلان").data
    taadil := []
    jarh := []
    unclassified := []
    teachers := []
    students := []
    source := ((2 : Int), 10) }

/-- Witness entry whose name extraction fails in `JarhWaTadilExtractor`
(no patronymic `بن` after the first word). -/
def entryNoName : Chars := ("1 - روى عن فلان").data

/-- Witness evaluator-match list: one attributed match whose phrase contains
the lexicon terms `ثقة ثبت`, `ثقة` and `ثبت`. -/
def msW : List (Chars × Chars) := [(("احمد").data, ("ثقة ثبت").data)]

/-- Witness entry text containing the same phrase, so the standalone scan
duplicates the attributed captures. -/
def textW : Chars := ("قال احمد: ثقة ثبت").data

/-- Witness evaluator-match list whose phrase contains no lexicon term. -/
def msU : List (Chars × Chars) := [(("احمد").data, ("رجل غريب").data)]

/-- Witness entry text for the unclassified case. -/
def textU : Chars := ("قال احمد: رجل غريب").data

/-- Witness teacher capture (one `findall` result of the first teacher
pattern). -/
def tCapsW : List Chars := [("خالد بن زيد وعمر بن سعد").data]

/-- Witness student capture. -/
def sCapsW : List Chars := [("سعيد بن جبير").data]

/-- Witness entry for the stop-set name extractor: the pattern `\sروت\s+عن`
occurs right after the name. -/
def entryStopW : Chars := ("3 - زينب بنت كعب روت عن ابى سعيد").data

/-- The nested-footnote input on which the Noise Stripper is not
idempotent: one pass yields `(13)`, which a second pass removes. -/
def nestedParens : Chars := ("(1(2)3)").data

/-- A noise-bearing input whose single-pass output contains no further
marker, used to witness the conditional idempotence statement. -/
def plainNoise : Chars := ("ابو (12) [قال] بكر").data

/-!  General lemmas about the string machinery.  -/

theorem charsVal_cons (c : Char) (s : Chars) :
    charsVal (c :: s) = s.foldl (fun a d => 10 * a + (d.toNat - 48)) (c.toNat - 48) := by
  simp [charsVal]

theorem charsVal_replicate_zero (k : Nat) (s : Chars) :
    charsVal (List.replicate k '0' ++ s) = charsVal s := by
  induction k with
  | zero => simp
  | succ n ih =>
    simpa [charsVal, List.foldl_append] using ih

theorem charsVal_append_single (l : Chars) (c : Char) :
    charsVal (l ++ [c]) = 10 * charsVal l + (c.toNat - 48) := by
  simp [charsVal, List.foldl_append]

theorem digitChar_toNat (d : Nat) (h : d < 10) : (digitChar d).toNat = 48 + d := by
  interval_cases d <;> rfl

theorem charsVal_digitsAux (f n : Nat) (h : n < f) :
    charsVal (digitsAux f n) = n := by
  induction f generalizing n with
  | zero => omega
  | succ f ih =>
    by_cases h10 : n < 10
    · simp only [digitsAux, if_pos h10, charsVal, List.foldl]
      rw [digitChar_toNat n h10]
      omega
    · have hd : n / 10 < f := by omega
      simp only [digitsAux, if_neg h10]
      rw [charsVal_append_single, ih _ hd, digitChar_toNat (n % 10) (by omega)]
      omega

theorem charsVal_natToChars (n : Nat) : charsVal (natToChars n) = n :=
  charsVal_digitsAux (n + 1) n (Nat.lt_succ_self n)

theorem charsVal_zfill5 (s : Chars) : charsVal (zfill5 s) = charsVal s :=
  charsVal_replicate_zero _ s

theorem mkId_injective : Function.Injective JarhWaTadilExtractor.mkId := by
  intro a b h
  have h2 : zfill5 (natToChars a) = zfill5 (natToChars b) := by
    simpa [JarhWaTadilExtractor.mkId] using h
  have := congrArg charsVal h2
  rwa [charsVal_zfill5, charsVal_zfill5, charsVal_natToChars,
    charsVal_natToChars] at this

theorem ws_not_arab (c : Char) (h : isWS c = true) : arabLetter c = false := by
  simp only [isWS, Bool.or_eq_true, decide_eq_true_eq] at h
  rcases h with ((((h | h) | h) | h) | h) | h <;> subst h <;> decide

theorem dropWhile_witness {p : Char → Bool} :
    ∀ (l : Chars), (∃ c ∈ l, p c = false) →
      ∃ c ∈ l.dropWhile p, p c = false := by
  intro l hl
  induction l with
  | nil => simp at hl
  | cons a r ih =>
    by_cases ha : p a = true
    · rw [List.dropWhile_cons_of_pos ha]
      apply ih
      rcases hl with ⟨c, hc, hpc⟩
      rcases List.mem_cons.mp hc with rfl | hcr
      · exact absurd ha (by simp [hpc])
      · exact ⟨c, hcr, hpc⟩
    · rw [List.dropWhile_cons_of_neg ha]
      exact ⟨a, List.mem_cons_self a r, by simpa using ha⟩

theorem stripWS_ne_nil (l : Chars) (h : ∃ c ∈ l, isWS c = false) :
    stripWS l ≠ [] := by
  intro hnil
  unfold stripWS rdropWhile at hnil
  have h1 : (l.dropWhile isWS).reverse.dropWhile isWS = [] := by
    have := congrArg List.reverse hnil
    simpa using this
  have h2 : ∀ c ∈ (l.dropWhile isWS).reverse, isWS c = true := by
    intro c hc
    have := List.dropWhile_eq_nil_iff.mp h1
    simpa using this c hc
  rcases dropWhile_witness l h with ⟨c, hc, hpc⟩
  have := h2 c (by simpa using hc)
  simp [this] at hpc

theorem splitWSAux_tokens :
    ∀ (s tok : Chars), (∀ c ∈ tok, isWS c = false) →
      ∀ w ∈ splitWSAux s tok, w ≠ [] ∧ ∀ c ∈ w, isWS c = false := by
  intro s
  induction s with
  | nil =>
    intro tok htok w hw
    by_cases h : tok = []
    · subst h; simp [splitWSAux] at hw
    · simp only [splitWSAux, if_neg h, List.mem_singleton] at hw
      subst hw
      exact ⟨by simpa using h, fun c hc => htok c (by simpa using hc)⟩
  | cons a r ih =>
    intro tok htok w hw
    by_cases ha : isWS a = true
    · by_cases h : tok = []
      · subst h
        simp only [splitWSAux, ha, if_pos rfl, if_true] at hw
        exact ih [] (by simp) w (by simpa using hw)
      · simp only [splitWSAux, ha, if_true, if_neg h, List.mem_cons] at hw
        rcases hw with rfl | hw
        · exact ⟨by simpa using h, fun c hc => htok c (by simpa using hc)⟩
        · exact ih [] (by simp) w hw
    · have ha' : isWS a = false := by simpa using ha
      simp only [splitWSAux, ha', if_false, Bool.false_eq_true] at hw
      refine ih (a :: tok) ?_ w hw
      intro c hc
      rcases List.mem_cons.mp hc with rfl | hc
      · exact ha'
      · exact htok c hc

theorem splitWS_tokens (s : Chars) :
    ∀ w ∈ splitWS s, w ≠ [] ∧ ∀ c ∈ w, isWS c = false :=
  splitWSAux_tokens s [] (by simp)

theorem splitWSAux_append_noWS :
    ∀ (w s tok : Chars), (∀ c ∈ w, isWS c = false) →
      splitWSAux (w ++ s) tok = splitWSAux s (w.reverse ++ tok) := by
  intro w
  induction w with
  | nil => intro s tok _; simp
  | cons a r ih =>
    intro s tok hw
    have ha : isWS a = false := hw a (List.mem_cons_self a r)
    simp only [List.cons_append, splitWSAux, ha, Bool.false_eq_true, if_false,
      List.append_eq]
    rw [ih s (a :: tok) (fun c hc => hw c (List.mem_cons_of_mem a hc))]
    simp

theorem splitWS_join :
    ∀ (l : List Chars), (∀ w ∈ l, w ≠ [] ∧ ∀ c ∈ w, isWS c = false) →
      splitWS (joinWords l) = l := by
  intro l
  induction l with
  | nil => intro _; simp [splitWS, joinWords, splitWSAux]
  | cons w ws ih =>
    intro hl
    have hw := hl w (List.mem_cons_self w ws)
    cases ws with
    | nil =>
      show splitWSAux (joinWords [w]) [] = [w]
      have : joinWords [w] = w ++ [] := by simp [joinWords]
      rw [this, splitWSAux_append_noWS w [] [] hw.2]
      have hrev : w.reverse ≠ [] := by simpa using hw.1
      simp [splitWSAux, hrev]
    | cons x xs =>
      show splitWSAux (joinWords (w :: x :: xs)) [] = w :: x :: xs
      have hjw : joinWords (w :: x :: xs) = w ++ ' ' :: joinWords (x :: xs) := by
        simp [joinWords]
      rw [hjw, splitWSAux_append_noWS w _ [] hw.2]
      have hrev : ¬ (w.reverse ++ [] = []) := by simpa using hw.1
      simp only [splitWSAux, show isWS ' ' = true from rfl, if_true, if_neg hrev]
      rw [show (w.reverse ++ [] : Chars).reverse = w by simp]
      have := ih (fun v hv => hl v (List.mem_cons_of_mem w hv))
      simpa [splitWS] using congrArg (w :: ·) this

theorem postName_words_le_six (n : Chars) :
    (splitWS (NarratorExtractor.postName n)).length ≤ 6 := by
  unfold NarratorExtractor.postName
  set n2 := rstripPunct (stripWS n) with hn2
  by_cases h : 6 < (splitWS n2).length
  · simp only [if_pos h]
    have htok : ∀ w ∈ (splitWS n2).take 6, w ≠ [] ∧ ∀ c ∈ w, isWS c = false :=
      fun w hw => splitWS_tokens n2 w (List.mem_of_mem_take hw)
    rw [splitWS_join _ htok]
    simp [List.length_take]
  · simp only [if_neg h]
    omega

/-!  Lemmas about the stop-pattern search.  -/

theorem firstMatchPos_some (p : List PatElem) :
    ∀ (s : Chars) (i : Nat), firstMatchPos p s = some i →
      patMatch p (s.drop i) = true ∧ ∀ j < i, patMatch p (s.drop j) = false := by
  intro s
  induction s with
  | nil =>
    intro i hi
    by_cases h : patMatch p [] = true
    · simp only [firstMatchPos, if_pos h, Option.some.injEq] at hi
      subst hi
      exact ⟨h, fun j hj => absurd hj (by omega)⟩
    · simp [firstMatchPos, h] at hi
  | cons c r ih =>
    intro i hi
    by_cases h : patMatch p (c :: r) = true
    · simp only [firstMatchPos, if_pos h, Option.some.injEq] at hi
      subst hi
      exact ⟨h, fun j hj => absurd hj (by omega)⟩
    · simp only [firstMatchPos, if_neg h, Option.map_eq_some'] at hi
      rcases hi with ⟨i', hi', rfl⟩
      rcases ih i' hi' with ⟨hm, hmin⟩
      refine ⟨by simpa using hm, ?_⟩
      intro j hj
      cases j with
      | zero => simpa using h
      | succ j' =>
        have : j' < i' := by omega
        simpa using hmin j' this

theorem firstMatchPos_none (p : List PatElem) :
    ∀ (s : Chars), firstMatchPos p s = none →
      ∀ j, patMatch p (s.drop j) = false := by
  intro s
  induction s with
  | nil =>
    intro hn j
    by_cases h : patMatch p [] = true
    · simp [firstMatchPos, h] at hn
    · simpa using h
  | cons c r ih =>
    intro hn j
    by_cases h : patMatch p (c :: r) = true
    · simp [firstMatchPos, h] at hn
    · simp only [firstMatchPos, if_neg h, Option.map_eq_none'] at hn
      cases j with
      | zero => simpa using h
      | succ j' => simpa using ih hn j'

theorem minFold_le (s : Chars) :
    ∀ (pats : List (List PatElem)) (acc : Nat),
      pats.foldl (NarratorExtractor.minStep s) acc ≤ acc := by
  intro pats
  induction pats with
  | nil => intro acc; simp
  | cons p ps ih =>
    intro acc
    refine le_trans (ih _) ?_
    unfold NarratorExtractor.minStep
    cases h : firstMatchPos p s with
    | none => simp
    | some i =>
      by_cases hlt : i < acc
      · simp [hlt]; omega
      · simp [hlt]

theorem minFold_le_pos (s : Chars) :
    ∀ (pats : List (List PatElem)) (acc : Nat) (p : List PatElem),
      p ∈ pats → ∀ i, firstMatchPos p s = some i →
        pats.foldl (NarratorExtractor.minStep s) acc ≤ i := by
  intro pats
  induction pats with
  | nil => intro acc p hp; simp at hp
  | cons q ps ih =>
    intro acc p hp i hi
    rcases List.mem_cons.mp hp with rfl | hp
    · refine le_trans (minFold_le s ps _) ?_
      unfold NarratorExtractor.minStep
      rw [hi]
      by_cases hlt : i < acc
      · simp [hlt]
      · simp [hlt]; omega
    · exact ih _ p hp i hi

theorem minFold_attained (s : Chars) :
    ∀ (pats : List (List PatElem)) (acc : Nat),
      pats.foldl (NarratorExtractor.minStep s) acc = acc ∨
        ∃ p ∈ pats, firstMatchPos p s =
          some (pats.foldl (NarratorExtractor.minStep s) acc) := by
  intro pats
  induction pats with
  | nil => intro acc; left; rfl
  | cons q ps ih =>
    intro acc
    rcases ih (NarratorExtractor.minStep s acc q) with heq | ⟨p, hp, hfix⟩
    · rw [List.foldl_cons, heq]
      unfold NarratorExtractor.minStep
      cases h : firstMatchPos q s with
      | none => left; rfl
      | some i =>
        by_cases hlt : i < acc
        · right
          exact ⟨q, List.mem_cons_self q ps, by simp [h, hlt]⟩
        · left; simp [hlt]
    · right
      exact ⟨p, List.mem_cons_of_mem q hp, by rw [List.foldl_cons]; exact hfix⟩

theorem minStop_spec (s : Chars) :
    NarratorExtractor.minStop s ≤ s.length ∧
    (∀ j < NarratorExtractor.minStop s, NarratorExtractor.stopAt s j = false) ∧
    (NarratorExtractor.minStop s < s.length →
      NarratorExtractor.stopAt s (NarratorExtractor.minStop s) = true) := by
  refine ⟨minFold_le s _ _, ?_, ?_⟩
  · intro j hj
    unfold NarratorExtractor.stopAt
    rw [List.any_eq_false]
    intro p hp
    cases h : firstMatchPos p s with
    | none => simpa using firstMatchPos_none p s h j
    | some i =>
      have hmi : NarratorExtractor.minStop s ≤ i := minFold_le_pos s _ _ p hp i h
      have : j < i := by omega
      simpa using (firstMatchPos_some p s i h).2 j this
  · intro hlt
    rcases minFold_attained s NarratorExtractor.stop_patterns s.length with heq | hat
    · have h2 : NarratorExtractor.minStop s = s.length := heq
      omega
    · rcases hat with ⟨p, hp, hfix⟩
      unfold NarratorExtractor.stopAt
      rw [List.any_eq_true]
      refine ⟨p, hp, ?_⟩
      simpa using (firstMatchPos_some p s _ hfix).1

/-- C5: for every entry span, after stripping the leading number marker and
the noise, the extracted name is exactly the text before the earliest
position where a stop-set phrase matches (no stop pattern matches earlier);
if no stop phrase occurs the name falls back to the first five
whitespace-delimited words; and after the trimming postprocessing the
returned name has at most six whitespace-delimited words. -/
theorem name_stop_boundary (t : Chars) :
    (∀ j < NarratorExtractor.minStop (NarratorExtractor.cleanedEntry t),
      NarratorExtractor.stopAt (NarratorExtractor.cleanedEntry t) j = false) ∧
    (if _h : NarratorExtractor.minStop (NarratorExtractor.cleanedEntry t) <
        (NarratorExtractor.cleanedEntry t).length then
      NarratorExtractor.stopAt (NarratorExtractor.cleanedEntry t)
          (NarratorExtractor.minStop (NarratorExtractor.cleanedEntry t)) = true ∧
        NarratorExtractor.extract_name t =
          NarratorExtractor.postName (stripWS
            ((NarratorExtractor.cleanedEntry t).take
              (NarratorExtractor.minStop (NarratorExtractor.cleanedEntry t))))
    else
      NarratorExtractor.extract_name t =
        NarratorExtractor.postName (joinWords
          ((splitWS (NarratorExtractor.cleanedEntry t)).take 5))) ∧
    (splitWS (NarratorExtractor.extract_name t)).length ≤ 6 := by
  have hdef : NarratorExtractor.extract_name t =
      NarratorExtractor.postName
        (if NarratorExtractor.minStop (NarratorExtractor.cleanedEntry t) <
            (NarratorExtractor.cleanedEntry t).length then
          stripWS ((NarratorExtractor.cleanedEntry t).take
            (NarratorExtractor.minStop (NarratorExtractor.cleanedEntry t)))
        else joinWords ((splitWS (NarratorExtractor.cleanedEntry t)).take 5)) :=
    rfl
  obtain ⟨hle, hmin, hat⟩ := minStop_spec (NarratorExtractor.cleanedEntry t)
  refine ⟨hmin, ?_, ?_⟩
  · by_cases h : NarratorExtractor.minStop (NarratorExtractor.cleanedEntry t) <
        (NarratorExtractor.cleanedEntry t).length
    · rw [dif_pos h]
      refine ⟨hat h, ?_⟩
      rw [hdef, if_pos h]
    · rw [dif_neg h]
      rw [hdef, if_neg h]
  · rw [hdef]
    exact postName_words_le_six _

set_option maxHeartbeats 2000000 in
/-- Witness for C5 on a concrete entry: no stop pattern matches at position
0, and the extracted name is the text before the `روت عن` boundary. -/
theorem name_stop_boundary_witness :
    NarratorExtractor.stopAt (NarratorExtractor.cleanedEntry entryStopW) 0 = false ∧
    NarratorExtractor.extract_name entryStopW = ("زينب بنت كعب").data := by
  have h := name_stop_boundary entryStopW
  refine ⟨h.1 0 (by decide), ?_⟩
  have h2 := h.2.1
  rw [dif_pos (by decide)] at h2
  rw [h2.2]
  decide

/-!  Lemmas about the judgement classifier.  -/

theorem foldl_if_append {α β : Type} (f : α → Bool) (g : α → β) :
    ∀ (ts : List α) (init : List β),
      ts.foldl (fun l p => if f p then l ++ [g p] else l) init
        = init ++ (ts.filter f).map g := by
  intro ts
  induction ts with
  | nil => intro init; simp
  | cons t ts ih =>
    intro init
    rw [List.foldl_cons]
    cases h : f t with
    | true => rw [if_pos rfl, ih, List.filter_cons_of_pos (by simp [h])]; simp
    | false => rw [if_neg (by simp), ih, List.filter_cons_of_neg (by simp [h])]

theorem foldl_if_flag {α β : Type} (f : α → Bool) (g : α → β) :
    ∀ (ts : List α) (init : List β) (b : Bool),
      ts.foldl (fun lc p => if f p then (lc.1 ++ [g p], true) else lc) (init, b)
        = (init ++ (ts.filter f).map g, b || ts.any f) := by
  intro ts
  induction ts with
  | nil => intro init b; simp
  | cons t ts ih =>
    intro init b
    rw [List.foldl_cons]
    cases h : f t with
    | true =>
      rw [if_pos rfl]
      rw [ih, List.filter_cons_of_pos (by simp [h])]
      simp [h]
    | false =>
      rw [if_neg (by simp)]
      rw [ih, List.filter_cons_of_neg (by simp [h])]
      simp [h]

theorem judgeStep_eq (acc : List Judgement × List Judgement × List Judgement)
    (m : Chars × Chars) :
    JarhWaTadilExtractor.judgeStep acc m =
      (acc.1 ++ JarhWaTadilExtractor.attTaadil m,
       acc.2.1 ++ JarhWaTadilExtractor.attJarh m,
       acc.2.2 ++
         if JarhWaTadilExtractor.unclassifiedFlag m then
           [JarhWaTadilExtractor.unclassOf m]
         else []) := by
  simp only [JarhWaTadilExtractor.judgeStep, JarhWaTadilExtractor.attTaadil,
    JarhWaTadilExtractor.attJarh, JarhWaTadilExtractor.unclassifiedFlag,
    JarhWaTadilExtractor.unclassOf]
  rw [foldl_if_flag (fun p : Chars × Chars => hasSub p.1 (stripWS m.2))
      (fun p : Chars × Chars =>
        (⟨some p.2, stripWS m.2, some (stripWS m.1)⟩ : Judgement)),
    foldl_if_flag (fun p : Chars × Chars => hasSub p.1 (stripWS m.2))
      (fun p : Chars × Chars =>
        (⟨some p.2, stripWS m.2, some (stripWS m.1)⟩ : Judgement))]
  simp only [Bool.false_or]
  cases h : (JarhWaTadilExtractor.taadil_terms.any
        (fun p => hasSub p.1 (stripWS m.2)) ||
      JarhWaTadilExtractor.jarh_terms.any
        (fun p => hasSub p.1 (stripWS m.2))) with
  | true => simp
  | false => simp

theorem foldl_judgeStep :
    ∀ (ms : List (Chars × Chars)) (A B C : List Judgement),
      ms.foldl JarhWaTadilExtractor.judgeStep (A, B, C) =
        (A ++ (ms.map JarhWaTadilExtractor.attTaadil).flatten,
         B ++ (ms.map JarhWaTadilExtractor.attJarh).flatten,
         C ++ (ms.filter JarhWaTadilExtractor.unclassifiedFlag).map
           JarhWaTadilExtractor.unclassOf) := by
  intro ms
  induction ms with
  | nil => intro A B C; simp
  | cons m ms ih =>
    intro A B C
    rw [List.foldl_cons, judgeStep_eq, ih]
    cases h : JarhWaTadilExtractor.unclassifiedFlag m with
    | true =>
      rw [List.filter_cons_of_pos (by simp [h])]
      simp
    | false =>
      rw [List.filter_cons_of_neg (by simp [h])]
      simp

theorem extract_judgements_eq (ms : List (Chars × Chars)) (text : Chars) :
    JarhWaTadilExtractor.extract_judgements ms text =
      ((ms.map JarhWaTadilExtractor.attTaadil).flatten ++
         JarhWaTadilExtractor.standaloneTaadil text,
       (ms.map JarhWaTadilExtractor.attJarh).flatten ++
         JarhWaTadilExtractor.standaloneJarh text,
       (ms.filter JarhWaTadilExtractor.unclassifiedFlag).map
         JarhWaTadilExtractor.unclassOf) := by
  unfold JarhWaTadilExtractor.extract_judgements
  rw [foldl_judgeStep ms [] [] []]
  simp only [List.nil_append]
  unfold JarhWaTadilExtractor.standaloneTaadil JarhWaTadilExtractor.standaloneJarh
  rw [foldl_if_append (fun p : Chars × Chars => hasSub p.1 text)
      (fun p : Chars × Chars => (⟨some p.2, p.1, none⟩ : Judgement)),
    foldl_if_append (fun p : Chars × Chars => hasSub p.1 text)
      (fun p : Chars × Chars => (⟨some p.2, p.1, none⟩ : Judgement))]

/-- C3: for every attributed evaluator match, the classifier emits one
Judgement per lexicon term (from either lexicon) contained in the stripped
phrase — all matches, without short-circuiting, so one phrase can feed both
`taadil` and `jarh` — and it emits exactly one unclassified entry if and
only if the phrase contains no term of either lexicon: the attributed
portions of the three outputs are exactly the per-match concatenations of
`attTaadil`/`attJarh`, and the unclassified output is exactly one
`unclassOf` entry per match whose `unclassifiedFlag` holds. -/
theorem judgement_classifier_multimatch (ms : List (Chars × Chars))
    (text : Chars) :
    (JarhWaTadilExtractor.extract_judgements ms text).1 =
      (ms.map JarhWaTadilExtractor.attTaadil).flatten ++
        JarhWaTadilExtractor.standaloneTaadil text ∧
    (JarhWaTadilExtractor.extract_judgements ms text).2.1 =
      (ms.map JarhWaTadilExtractor.attJarh).flatten ++
        JarhWaTadilExtractor.standaloneJarh text ∧
    (JarhWaTadilExtractor.extract_judgements ms text).2.2 =
      (ms.filter JarhWaTadilExtractor.unclassifiedFlag).map
        JarhWaTadilExtractor.unclassOf := by
  rw [extract_judgements_eq]
  exact ⟨rfl, rfl, rfl⟩

/-- C4: independently of the attributed matches, every lexicon term
contained anywhere in the entry text yields one additional Judgement with
`evaluated_by` absent, appended after the attributed portion without any
deduplication: a term captured both inside an attributed phrase and by the
standalone scan appears in the output twice. -/
theorem standalone_scan_duplicates (ms : List (Chars × Chars))
    (text : Chars) :
    (JarhWaTadilExtractor.extract_judgements ms text).1 =
      (ms.map JarhWaTadilExtractor.attTaadil).flatten ++
        (JarhWaTadilExtractor.taadil_terms.filter
          (fun p => hasSub p.1 text)).map
          (fun p => (⟨some p.2, p.1, none⟩ : Judgement)) ∧
    (JarhWaTadilExtractor.extract_judgements ms text).2.1 =
      (ms.map JarhWaTadilExtractor.attJarh).flatten ++
        (JarhWaTadilExtractor.jarh_terms.filter
          (fun p => hasSub p.1 text)).map
          (fun p => (⟨some p.2, p.1, none⟩ : Judgement)) ∧
    (∀ p ∈ JarhWaTadilExtractor.taadil_terms, hasSub p.1 text = true →
      (⟨some p.2, p.1, none⟩ : Judgement) ∈
        (JarhWaTadilExtractor.extract_judgements ms text).1) ∧
    (∀ m ∈ ms, ∀ p ∈ JarhWaTadilExtractor.taadil_terms,
      hasSub p.1 (stripWS m.2) = true → hasSub p.1 text = true →
      (⟨some p.2, stripWS m.2, some (stripWS m.1)⟩ : Judgement) ∈
          (JarhWaTadilExtractor.extract_judgements ms text).1 ∧
        (⟨some p.2, p.1, none⟩ : Judgement) ∈
          (JarhWaTadilExtractor.extract_judgements ms text).1) := by
  have h1 : (JarhWaTadilExtractor.extract_judgements ms text).1 =
      (ms.map JarhWaTadilExtractor.attTaadil).flatten ++
        JarhWaTadilExtractor.standaloneTaadil text := by
    rw [extract_judgements_eq]
  have h2 : (JarhWaTadilExtractor.extract_judgements ms text).2.1 =
      (ms.map JarhWaTadilExtractor.attJarh).flatten ++
        JarhWaTadilExtractor.standaloneJarh text := by
    rw [extract_judgements_eq]
  refine ⟨h1, h2, ?_, ?_⟩
  · intro p hp hsub
    rw [h1]
    refine List.mem_append_right _ ?_
    unfold JarhWaTadilExtractor.standaloneTaadil
    exact List.mem_map.mpr ⟨p, List.mem_filter.mpr ⟨hp, by simpa using hsub⟩, rfl⟩
  · intro m hm p hp hsubPhrase hsubText
    constructor
    · rw [h1]
      refine List.mem_append_left _ ?_
      rw [List.mem_flatten]
      refine ⟨JarhWaTadilExtractor.attTaadil m, List.mem_map_of_mem _ hm, ?_⟩
      unfold JarhWaTadilExtractor.attTaadil
      exact List.mem_map.mpr
        ⟨p, List.mem_filter.mpr ⟨hp, by simpa using hsubPhrase⟩, rfl⟩
    · rw [h1]
      refine List.mem_append_right _ ?_
      unfold JarhWaTadilExtractor.standaloneTaadil
      exact List.mem_map.mpr
        ⟨p, List.mem_filter.mpr ⟨hp, by simpa using hsubText⟩, rfl⟩

/-- Witness for C4 at a concrete entry: the term `ثقة` matched inside the
attributed phrase `ثقة ثبت` also appears in the text, and both the
attributed copy and the standalone copy are present in the taadil output. -/
theorem standalone_scan_duplicates_witness :
    (⟨some (("Thiqa").data), stripWS (("ثقة ثبت").data),
        some (stripWS (("احمد").data))⟩ : Judgement) ∈
      (JarhWaTadilExtractor.extract_judgements msW textW).1 ∧
    (⟨some (("Thiqa").data), ("ثقة").data, none⟩ : Judgement) ∈
      (JarhWaTadilExtractor.extract_judgements msW textW).1 :=
  (standalone_scan_duplicates msW textW).2.2.2
    ((("احمد").data), (("ثقة ثبت").data)) (by decide)
    ((("ثقة").data), (("Thiqa").data)) (by decide) (by decide) (by decide)

/-- C10: every element of the unclassified output carries an `evaluated_by`
value (and no `statement`), and it arises from an attributed evaluator
match whose phrase contained no lexicon term; the standalone scan never
contributes to `unclassified`. -/
theorem unclassified_only_attributed (ms : List (Chars × Chars))
    (text : Chars) :
    ∀ j ∈ (JarhWaTadilExtractor.extract_judgements ms text).2.2,
      j.statement = none ∧ j.evaluated_by.isSome = true ∧
        ∃ m ∈ ms, JarhWaTadilExtractor.unclassifiedFlag m = true ∧
          j = JarhWaTadilExtractor.unclassOf m := by
  intro j hj
  have h3 : (JarhWaTadilExtractor.extract_judgements ms text).2.2 =
      (ms.filter JarhWaTadilExtractor.unclassifiedFlag).map
        JarhWaTadilExtractor.unclassOf := by
    rw [extract_judgements_eq]
  rw [h3] at hj
  rcases List.mem_map.mp hj with ⟨m, hmf, rfl⟩
  rcases List.mem_filter.mp hmf with ⟨hm, hflag⟩
  exact ⟨rfl, rfl, m, hm, hflag, rfl⟩

/-- Witness for C10 at a concrete unclassified entry. -/
theorem unclassified_only_attributed_witness :
    (⟨none, stripWS (("رجل غريب").data),
        some (stripWS (("احمد").data))⟩ : Judgement).statement = none ∧
    (⟨none, stripWS (("رجل غريب").data),
        some (stripWS (("احمد").data))⟩ : Judgement).evaluated_by.isSome
      = true := by
  have h := unclassified_only_attributed msU textU
    (⟨none, stripWS (("رجل غريب").data), some (stripWS (("احمد").data))⟩)
    (by decide)
  exact ⟨h.1, h.2.1⟩

/-!  Lemmas about name extraction and the record builder.  -/

theorem parseNameCore_witness_char (s g1 : Chars)
    (h : JarhWaTadilExtractor.parseNameCore s = some g1) :
    ∃ c ∈ g1, isWS c = false := by
  simp only [JarhWaTadilExtractor.parseNameCore] at h
  by_cases hrun : s.takeWhile arabLetter = []
  · simp [hrun] at h
  · rw [if_neg hrun] at h
    cases hrep : JarhWaTadilExtractor.repOnce
        (s.drop (s.takeWhile arabLetter).length) with
    | none => rw [hrep] at h; simp at h
    | some pr =>
      rw [hrep] at h
      dsimp only at h
      simp only [Option.some.injEq] at h
      cases hq : s.takeWhile arabLetter with
      | nil => exact absurd hq hrun
      | cons c tl =>
        have harab : arabLetter c = true := by
          have : c ∈ s.takeWhile arabLetter := by rw [hq]; simp
          exact List.mem_takeWhile_imp this
        have hws : isWS c = false := by
          cases hw : isWS c with
          | false => rfl
          | true => exact absurd harab (by simp [ws_not_arab c hw])
        refine ⟨c, ?_, hws⟩
        rw [← h, hq]
        simp

theorem extract_name1_some_ne_nil (e s : Chars)
    (h : JarhWaTadilExtractor.extract_name e = some s) : s ≠ [] := by
  simp only [JarhWaTadilExtractor.extract_name] at h
  cases hpd : JarhWaTadilExtractor.parseNumDash
      (JarhWaTadilExtractor.remove_footnotes
        (e.takeWhile (fun c => c ≠ '\n'))) with
  | none => rw [hpd] at h; simp at h
  | some rest =>
    rw [hpd] at h
    dsimp only at h
    cases hpn : JarhWaTadilExtractor.parseNameCore rest with
    | none => rw [hpn] at h; simp at h
    | some g1 =>
      rw [hpn] at h
      dsimp only at h
      simp only [Option.some.injEq] at h
      subst h
      exact stripWS_ne_nil g1 (parseNameCore_witness_char rest g1 hpn)

theorem process_entry_shape (em : Chars → List (Chars × Chars))
    (tc sc : Chars → List Chars) (enum : List Chars → List Chars)
    (entry : Chars) (page : Nat) (vol : Int) (counter : Nat) :
    JarhWaTadilExtractor.process_entry em tc sc enum entry page vol counter
        = (none, counter) ∨
    ∃ r, JarhWaTadilExtractor.process_entry em tc sc enum entry page vol
        counter = (some r, counter + 1) ∧
      r.narrator_id = JarhWaTadilExtractor.mkId counter := by
  unfold JarhWaTadilExtractor.process_entry
  cases hx : JarhWaTadilExtractor.extract_name entry with
  | none => left; rfl
  | some name =>
    dsimp only
    by_cases hn : name = []
    · left; rw [if_pos hn]
    · right
      rw [if_neg hn]
      exact ⟨_, rfl, rfl⟩

/-- C2: an entry whose name extraction yields no usable (nonempty) name
produces no record and leaves the counter unchanged (the embedded
`process_entry` is total, so no error is surfaced); `extract_name` never
returns an empty name; and every emitted record carries a nonempty
`full_name` and advances the counter exactly once. -/
theorem unnamed_entries_dropped (em : Chars → List (Chars × Chars))
    (tc sc : Chars → List Chars) (enum : List Chars → List Chars)
    (entry : Chars) (page : Nat) (vol : Int) (counter : Nat) :
    ((JarhWaTadilExtractor.extract_name entry = none ∨
        JarhWaTadilExtractor.extract_name entry = some []) →
      JarhWaTadilExtractor.process_entry em tc sc enum entry page vol counter
        = (none, counter)) ∧
    (∀ s, JarhWaTadilExtractor.extract_name entry = some s → s ≠ []) ∧
    (∀ r c2, JarhWaTadilExtractor.process_entry em tc sc enum entry page vol
        counter = (some r, c2) → r.full_name ≠ [] ∧ c2 = counter + 1) := by
  refine ⟨?_, fun s hs => extract_name1_some_ne_nil entry s hs, ?_⟩
  · intro h
    unfold JarhWaTadilExtractor.process_entry
    rcases h with h | h
    · rw [h]
    · rw [h]
      dsimp only
      rw [if_pos rfl]
  · intro r c2 h
    unfold JarhWaTadilExtractor.process_entry at h
    cases hx : JarhWaTadilExtractor.extract_name entry with
    | none => rw [hx] at h; simp at h
    | some name =>
      rw [hx] at h
      dsimp only at h
      by_cases hn : name = []
      · rw [if_pos hn] at h; simp at h
      · rw [if_neg hn] at h
        simp only [Prod.mk.injEq, Option.some.injEq] at h
        refine ⟨?_, h.2.symm⟩
        rw [← h.1]
        exact hn

/-- Witness for C2: a concrete entry with no extractable name is dropped
with the counter untouched. -/
theorem unnamed_entries_dropped_witness :
    (JarhWaTadilExtractor.extract_name entryNoName = none ∨
      JarhWaTadilExtractor.extract_name entryNoName = some []) ∧
    JarhWaTadilExtractor.process_entry emNone capNone capNone enumDedup
      entryNoName 3 2 5 = (none, 5) :=
  ⟨Or.inl (by decide),
    (unnamed_entries_dropped emNone capNone capNone enumDedup entryNoName
      3 2 5).1 (Or.inl (by decide))⟩

theorem processEntries_ids (em : Chars → List (Chars × Chars))
    (tc sc : Chars → List Chars) (enum : List Chars → List Chars)
    (page : Nat) (vol : Int) :
    ∀ (entries : List Chars) (c : Nat),
      (JarhWaTadilExtractor.processEntries em tc sc enum entries page vol
        c).2 =
        c + (JarhWaTadilExtractor.processEntries em tc sc enum entries page
          vol c).1.length ∧
      ∀ k (hk : k < (JarhWaTadilExtractor.processEntries em tc sc enum
          entries page vol c).1.length),
        ((JarhWaTadilExtractor.processEntries em tc sc enum entries page vol
          c).1.get ⟨k, hk⟩).narrator_id = JarhWaTadilExtractor.mkId (c + k) := by
  intro entries
  induction entries with
  | nil =>
    intro c
    constructor
    · simp [JarhWaTadilExtractor.processEntries]
    · intro k hk
      simp [JarhWaTadilExtractor.processEntries] at hk
  | cons e es ih =>
    intro c
    rcases process_entry_shape em tc sc enum e page vol c with hpe | ⟨r, hpe, hid⟩
    · have hstep : JarhWaTadilExtractor.processEntries em tc sc enum (e :: es)
          page vol c =
          JarhWaTadilExtractor.processEntries em tc sc enum es page vol c := by
        simp only [JarhWaTadilExtractor.processEntries, hpe]
      rw [hstep]
      exact ih c
    · have hstep : JarhWaTadilExtractor.processEntries em tc sc enum (e :: es)
          page vol c =
          (r :: (JarhWaTadilExtractor.processEntries em tc sc enum es page vol
              (c + 1)).1,
           (JarhWaTadilExtractor.processEntries em tc sc enum es page vol
              (c + 1)).2) := by
        simp only [JarhWaTadilExtractor.processEntries, hpe]
      rw [hstep]
      obtain ⟨ihlen, ihget⟩ := ih (c + 1)
      constructor
      · simp only [List.length_cons]
        omega
      · intro k hk
        cases k with
        | zero => simpa using hid
        | succ k' =>
          have hk' : k' < (JarhWaTadilExtractor.processEntries em tc sc enum
              es page vol (c + 1)).1.length := by
            simpa using hk
          have hg := ihget k' hk'
          have harith : c + 1 + k' = c + (k' + 1) := by omega
          rw [harith] at hg
          simpa using hg

theorem extract_from_json_ids (em : Chars → List (Chars × Chars))
    (tc sc : Chars → List Chars) (enum : List Chars → List Chars)
    (start : Int) :
    ∀ (pages : List Page) (c : Nat) (rs : List JarhTadilRecord) (cEnd : Nat),
      JarhWaTadilExtractor.extract_from_json em tc sc enum start pages c
        = some (rs, cEnd) →
      cEnd = c + rs.length ∧
      ∀ k (hk : k < rs.length),
        (rs.get ⟨k, hk⟩).narrator_id = JarhWaTadilExtractor.mkId (c + k) := by
  intro pages
  induction pages with
  | nil =>
    intro c rs cEnd h
    simp only [JarhWaTadilExtractor.extract_from_json, Option.some.injEq,
      Prod.mk.injEq] at h
    obtain ⟨h1, h2⟩ := h
    subst h1; subst h2
    exact ⟨by simp, fun k hk => by simp at hk⟩
  | cons p ps ih =>
    intro c rs cEnd h
    cases hv : pyInt (arabic_to_western p.vol) with
    | none =>
      simp only [JarhWaTadilExtractor.extract_from_json, hv] at h
      simp at h
    | some v =>
      simp only [JarhWaTadilExtractor.extract_from_json, hv] at h
      by_cases hlt : v < start
      · rw [if_pos hlt] at h
        exact ih c rs cEnd h
      · rw [if_neg hlt] at h
        cases hrec : JarhWaTadilExtractor.extract_from_json em tc sc enum
            start ps (JarhWaTadilExtractor.processEntries em tc sc enum
              (JarhWaTadilExtractor.segment_entries p.text) p.page v c).2 with
        | none => rw [hrec] at h; simp at h
        | some pr2 =>
          obtain ⟨rs2, cc2⟩ := pr2
          rw [hrec] at h
          simp only [Option.some.injEq, Prod.mk.injEq] at h
          obtain ⟨hrs, hcEnd⟩ := h
          obtain ⟨pelen, peget⟩ := processEntries_ids em tc sc enum p.page v
            (JarhWaTadilExtractor.segment_entries p.text) c
          obtain ⟨ihlen, ihget⟩ := ih _ rs2 cc2 hrec
          subst hrs
          subst hcEnd
          constructor
          · rw [ihlen, pelen]
            simp [List.length_append]
            omega
          · intro k hk
            by_cases hkp : k < (JarhWaTadilExtractor.processEntries em tc sc
                enum (JarhWaTadilExtractor.segment_entries p.text) p.page v
                  c).1.length
            · have hpg := peget k hkp
              rw [List.get_eq_getElem, List.getElem_append_left hkp]
              rw [List.get_eq_getElem] at hpg
              exact hpg
            · push_neg at hkp
              have hk2 : k - (JarhWaTadilExtractor.processEntries em tc sc
                  enum (JarhWaTadilExtractor.segment_entries p.text) p.page v
                    c).1.length < rs2.length := by
                simp [List.length_append] at hk
                omega
              have hig := ihget _ hk2
              rw [List.get_eq_getElem, List.getElem_append_right hkp]
              rw [List.get_eq_getElem] at hig
              rw [hig, pelen]
              congr 1
              omega

/-- C1: in every successful run of the pipeline started at counter 1, the
i-th emitted record (1-based) has `narrator_id` equal to `N` followed by
`i` zero-padded to five digits (`mkId i`); the final counter equals the
number of emitted records plus one (the counter is advanced exactly once
per emitted record); hence narrator ids are pairwise distinct and never
reused, and the id formula grows with the emission index. -/
theorem narrator_ids_sequential (em : Chars → List (Chars × Chars))
    (tc sc : Chars → List Chars) (enum : List Chars → List Chars)
    (start : Int) (pages : List Page) (rs : List JarhTadilRecord)
    (cEnd : Nat)
    (h : JarhWaTadilExtractor.extract_from_json em tc sc enum start pages 1
      = some (rs, cEnd)) :
    (∀ k (hk : k < rs.length),
      (rs.get ⟨k, hk⟩).narrator_id = JarhWaTadilExtractor.mkId (k + 1)) ∧
    cEnd = rs.length + 1 ∧
    ∀ k l (hk : k < rs.length) (hl : l < rs.length), k ≠ l →
      (rs.get ⟨k, hk⟩).narrator_id ≠ (rs.get ⟨l, hl⟩).narrator_id := by
  obtain ⟨hlen, hget⟩ :=
    extract_from_json_ids em tc sc enum start pages 1 rs cEnd h
  have hget' : ∀ k (hk : k < rs.length),
      (rs.get ⟨k, hk⟩).narrator_id = JarhWaTadilExtractor.mkId (k + 1) := by
    intro k hk
    rw [hget k hk, Nat.add_comm]
  refine ⟨hget', by omega, ?_⟩
  intro k l hk hl hne heq
  rw [hget' k hk, hget' l hl] at heq
  exact hne (by have := mkId_injective heq; omega)

/-- Witness for C1: a one-page run (volume given in Arabic-Indic numerals)
emits exactly one record, with `narrator_id = N00001` and final counter 2. -/
theorem narrator_ids_sequential_witness :
    JarhWaTadilExtractor.extract_from_json emNone capNone capNone enumDedup 2
        [pageW] 1 = some ([recW], 2) ∧
    ([recW].get ⟨0, by decide⟩).narrator_id =
      JarhWaTadilExtractor.mkId (0 + 1) := by
  have hrun : JarhWaTadilExtractor.extract_from_json emNone capNone capNone
      enumDedup 2 [pageW] 1 = some ([recW], 2) := by decide
  exact ⟨hrun,
    (narrator_ids_sequential emNone capNone capNone enumDedup 2 [pageW]
      [recW] 2 hrun).1 0 (by decide)⟩

/-- C6: a page whose volume identifier, after Arabic-Indic to ASCII
normalization, parses to a value below the starting-volume threshold
(default 2) contributes nothing to the run: deleting the page from the
input leaves the pipeline's entire result (records and final counter)
unchanged, regardless of the page's text. -/
theorem volume_filter_skips_page (em : Chars → List (Chars × Chars))
    (tc sc : Chars → List Chars) (enum : List Chars → List Chars)
    (start : Int) (p : Page) (v : Int)
    (hv : pyInt (arabic_to_western p.vol) = some v) (hlt : v < start) :
    ∀ (pre post : List Page) (c : Nat),
      JarhWaTadilExtractor.extract_from_json em tc sc enum start
        (pre ++ p :: post) c =
      JarhWaTadilExtractor.extract_from_json em tc sc enum start
        (pre ++ post) c := by
  intro pre
  induction pre with
  | nil =>
    intro post c
    show JarhWaTadilExtractor.extract_from_json em tc sc enum start
        (p :: post) c = _
    simp only [JarhWaTadilExtractor.extract_from_json, hv, if_pos hlt]
    rfl
  | cons q pre ih =>
    intro post c
    simp only [List.cons_append]
    cases hq : pyInt (arabic_to_western q.vol) with
    | none =>
      simp only [JarhWaTadilExtractor.extract_from_json, hq]
    | some w =>
      by_cases hw : w < start
      · simp only [JarhWaTadilExtractor.extract_from_json, hq, if_pos hw]
        exact ih post c
      · simp only [JarhWaTadilExtractor.extract_from_json, hq, if_neg hw]
        rw [ih post]

/-- Witness for C6: prepending a volume-1 page (Arabic-Indic numeral) to
the witness run leaves its output untouched. -/
theorem volume_filter_skips_page_witness :
    pyInt (arabic_to_western pageV1.vol) = some 1 ∧
    JarhWaTadilExtractor.extract_from_json emNone capNone capNone enumDedup 2
        ([] ++ pageV1 :: [pageW]) 1 =
      JarhWaTadilExtractor.extract_from_json emNone capNone capNone enumDedup
        2 ([] ++ [pageW]) 1 :=
  ⟨by decide,
    volume_filter_skips_page emNone capNone capNone enumDedup 2 pageV1 1
      (by decide) (by decide) [] [pageW] 1⟩

/-!  Lemmas about the relation extractor acceptance loop.  -/

theorem stepGen_nodup (cl : Chars → Chars) (acc : List Chars) (cand : Chars)
    (h : acc.Nodup) : (NarratorExtractor.stepGen cl acc cand).Nodup := by
  unfold NarratorExtractor.stepGen
  by_cases ha : NarratorExtractor.acceptName (cl cand) acc
  · rw [if_pos ha]
    rw [List.nodup_append]
    refine ⟨h, List.nodup_singleton _, ?_⟩
    intro a haacc hax
    rw [List.mem_singleton] at hax
    subst hax
    exact ha.2.2.2.2 haacc
  · rw [if_neg ha]
    exact h

theorem foldl_stepGen_nodup (cl : Chars → Chars) :
    ∀ (cands : List Chars) (acc : List Chars), acc.Nodup →
      (cands.foldl (NarratorExtractor.stepGen cl) acc).Nodup := by
  intro cands
  induction cands with
  | nil => intro acc h; exact h
  | cons cand cands ih =>
    intro acc h
    exact ih _ (stepGen_nodup cl acc cand h)

theorem foldl_stepGen_mem (cl : Chars → Chars) :
    ∀ (cands : List Chars) (acc : List Chars) (x : Chars),
      x ∈ cands.foldl (NarratorExtractor.stepGen cl) acc →
      x ∈ acc ∨ ((∃ cand ∈ cands, x = cl cand) ∧ 2 < x.length ∧
        hasSub (("بياض").data) x = false ∧
        hasSub (("احاديث").data) x = false ∧
        hasSub (("حديث").data) x = false) := by
  intro cands
  induction cands with
  | nil => intro acc x hx; exact Or.inl hx
  | cons cand cands ih =>
    intro acc x hx
    rcases ih _ x hx with hstep | ⟨⟨cand', hc', hx'⟩, hrest⟩
    · unfold NarratorExtractor.stepGen at hstep
      by_cases ha : NarratorExtractor.acceptName (cl cand) acc
      · rw [if_pos ha] at hstep
        rcases List.mem_append.mp hstep with hacc | hsingle
        · exact Or.inl hacc
        · rw [List.mem_singleton] at hsingle
          subst hsingle
          exact Or.inr ⟨⟨cand, List.mem_cons_self cand cands, rfl⟩,
            ha.1, ha.2.1, ha.2.2.1, ha.2.2.2.1⟩
      · rw [if_neg ha] at hstep
        exact Or.inl hstep
    · exact Or.inr ⟨⟨cand', List.mem_cons_of_mem cand hc', hx'⟩, hrest⟩

theorem foldl_caps_nodup (cl : Chars → Chars) :
    ∀ (caps : List Chars) (acc : List Chars), acc.Nodup →
      (caps.foldl (fun a cap =>
        (NarratorExtractor.splitAnd cap).foldl
          (NarratorExtractor.stepGen cl) a) acc).Nodup := by
  intro caps
  induction caps with
  | nil => intro acc h; exact h
  | cons cap caps ih =>
    intro acc h
    exact ih _ (foldl_stepGen_nodup cl _ acc h)

theorem foldl_caps_mem (cl : Chars → Chars) :
    ∀ (caps : List Chars) (acc : List Chars) (x : Chars),
      x ∈ caps.foldl (fun a cap =>
        (NarratorExtractor.splitAnd cap).foldl
          (NarratorExtractor.stepGen cl) a) acc →
      x ∈ acc ∨ ((∃ cap ∈ caps, ∃ cand ∈ NarratorExtractor.splitAnd cap,
          x = cl cand) ∧ 2 < x.length ∧
        hasSub (("بياض").data) x = false ∧
        hasSub (("احاديث").data) x = false ∧
        hasSub (("حديث").data) x = false) := by
  intro caps
  induction caps with
  | nil => intro acc x hx; exact Or.inl hx
  | cons cap caps ih =>
    intro acc x hx
    rcases ih _ x hx with hstep | ⟨⟨cap', hc', hrest'⟩, hrest⟩
    · rcases foldl_stepGen_mem cl _ acc x hstep with hacc | ⟨⟨cand, hc, hx'⟩, hrest⟩
      · exact Or.inl hacc
      · exact Or.inr ⟨⟨cap, List.mem_cons_self cap caps, cand, hc, hx'⟩, hrest⟩
    · exact Or.inr ⟨⟨cap', List.mem_cons_of_mem cap hc', hrest'⟩, hrest⟩

/-- C7: every name in the teachers (students) output is the cleaned form
of a conjunction-split candidate of some captured match, accepted only
when its length exceeds two characters and it contains none of the
metadata tokens `بياض`, `احاديث`, `حديث`; and, because acceptance also
requires absence from the list built so far, the resulting teachers and
students lists contain no exact-string duplicates. -/
theorem relation_candidate_acceptance (tCaps sCaps : List Chars) :
    (NarratorExtractor.extract_teachers tCaps).Nodup ∧
    (NarratorExtractor.extract_students sCaps).Nodup ∧
    (∀ x ∈ NarratorExtractor.extract_teachers tCaps,
      (∃ cap ∈ tCaps, ∃ cand ∈ NarratorExtractor.splitAnd cap,
        x = NarratorExtractor.cleanTName cand) ∧ 2 < x.length ∧
      hasSub (("بياض").data) x = false ∧
      hasSub (("احاديث").data) x = false ∧
      hasSub (("حديث").data) x = false) ∧
    (∀ x ∈ NarratorExtractor.extract_students sCaps,
      (∃ cap ∈ sCaps, ∃ cand ∈ NarratorExtractor.splitAnd cap,
        x = NarratorExtractor.cleanSName cand) ∧ 2 < x.length ∧
      hasSub (("بياض").data) x = false ∧
      hasSub (("احاديث").data) x = false ∧
      hasSub (("حديث").data) x = false) := by
  refine ⟨foldl_caps_nodup NarratorExtractor.cleanTName tCaps [] (by simp),
    foldl_caps_nodup NarratorExtractor.cleanSName sCaps [] (by simp), ?_, ?_⟩
  · intro x hx
    rcases foldl_caps_mem NarratorExtractor.cleanTName tCaps [] x hx with
      hnil | hgood
    · simp at hnil
    · exact hgood
  · intro x hx
    rcases foldl_caps_mem NarratorExtractor.cleanSName sCaps [] x hx with
      hnil | hgood
    · simp at hnil
    · exact hgood

/-- Witness for C7: the single capture splits into one candidate (the
conjunction `و` is not surrounded by whitespace on both sides), which is
accepted, so the teachers list is that cleaned candidate alone; the
student capture behaves likewise. -/
theorem relation_candidate_acceptance_witness :
    NarratorExtractor.extract_teachers tCapsW =
      [("خالد بن زيد وعمر بن سعد").data] ∧
    2 < (("خالد بن زيد وعمر بن سعد").data).length ∧
    hasSub (("حديث").data) (("خالد بن زيد وعمر بن سعد").data) = false := by
  have h := (relation_candidate_acceptance tCapsW sCapsW).2.2.1
    (("خالد بن زيد وعمر بن سعد").data) (by decide)
  exact ⟨by decide, h.2.1, h.2.2.2.2⟩

/-- Counterexample to C8: the Noise Stripper is not idempotent.  On
`(1(2)3)` the first pass removes only the inner footnote `(2)`, leaving
`(13)`, which the second pass removes entirely. -/
theorem noise_stripper_not_idempotent :
    JarhWaTadilExtractor.remove_footnotes
        (JarhWaTadilExtractor.remove_footnotes nestedParens) ≠
      JarhWaTadilExtractor.remove_footnotes nestedParens := by
  decide

/-- C8 as amended: re-applying the Noise Stripper is a no-op whenever the
first application's output is itself free of footnote markers and
bracketed spans (in particular, whenever the input has no nested markers);
with nested parenthesized footnotes a second application can remove
more. -/
theorem noise_stripper_idempotent_on_stripped (s : Chars)
    (h1 : JarhWaTadilExtractor.removeParens1
        (JarhWaTadilExtractor.remove_footnotes s) =
      JarhWaTadilExtractor.remove_footnotes s)
    (h2 : JarhWaTadilExtractor.removeBrackets1
        (JarhWaTadilExtractor.remove_footnotes s) =
      JarhWaTadilExtractor.remove_footnotes s) :
    JarhWaTadilExtractor.remove_footnotes
        (JarhWaTadilExtractor.remove_footnotes s) =
      JarhWaTadilExtractor.remove_footnotes s := by
  show JarhWaTadilExtractor.removeBrackets1 (JarhWaTadilExtractor.removeParens1
    (JarhWaTadilExtractor.remove_footnotes s)) =
    JarhWaTadilExtractor.remove_footnotes s
  rw [h1, h2]

/-- Witness for the amended C8: a non-nested noisy input whose stripped
form is marker-free, so the second pass changes nothing. -/
theorem noise_stripper_idempotent_on_stripped_witness :
    (JarhWaTadilExtractor.removeParens1
        (JarhWaTadilExtractor.remove_footnotes plainNoise) =
      JarhWaTadilExtractor.remove_footnotes plainNoise) ∧
    JarhWaTadilExtractor.remove_footnotes
        (JarhWaTadilExtractor.remove_footnotes plainNoise) =
      JarhWaTadilExtractor.remove_footnotes plainNoise :=
  ⟨by decide,
    noise_stripper_idempotent_on_stripped plainNoise (by decide) (by decide)⟩

/-- C9 (code bug): the teacher/student lists are produced by enumerating a
Python `set` of strings (`list(set(...))`), whose order is a function of
the per-process randomized string hashing, not of the input.  Two
enumerations that both satisfy the `list(set(...))` contract (`validEnum`:
no duplicates, exactly the inserted members) produce different pipeline
outputs on the same input, so the output order of `teachers` is not
determined by the input — re-running the program can reorder it. -/
theorem teacher_order_set_nondeterministic :
    ∃ e1 e2 : List Chars → List Chars,
      JarhWaTadilExtractor.validEnum e1 ∧ JarhWaTadilExtractor.validEnum e2 ∧
      JarhWaTadilExtractor.extract_teachers_students e1
          [("خالد بن زيد وعمر بن سعد").data] [] ≠
        JarhWaTadilExtractor.extract_teachers_students e2
          [("خالد بن زيد وعمر بن سعد").data] [] := by
  refine ⟨enumDedup, enumDedupRev, ?_, ?_, by decide⟩
  · intro xs
    exact ⟨List.nodup_dedup xs, fun a => List.mem_dedup⟩
  · intro xs
    refine ⟨?_, fun a => ?_⟩
    · exact List.nodup_reverse.mpr (List.nodup_dedup xs)
    · simp [enumDedupRev, List.mem_reverse, List.mem_dedup]
